import Mathlib

/-!
Verification of the distributed training orchestration in
`src/helen/modules/python/models/train_distributed.py`.

The development shallowly embeds the pieces of `train` (and its helpers)
that the verified properties are about: the windowed training loop, the
early-stopping rule, the per-epoch barrier structure, the data sharding
performed by the `DistributedSampler` constructed at lines 74-78, the
truncated-backpropagation hidden-state handling, the rank-0-only side
effects, checkpoint paths and overwrite semantics, the retrain-path
guard, the hidden-state initialization and the average-loss computation.
-/

namespace TrainDistributed

/-- Embedding of Python `range(0, stop, step)` for `step > 0`: the list
`[0, step, 2*step, ...]` of all multiples of `step` strictly below `stop`
(loop header at line 190 of `train_distributed.py`). -/
def pyRange (stop step : Nat) : List Nat :=
  List.range' 0 ((stop + step - 1) / step) step

/-- The window start offsets processed by the inner loop of `train`
(lines 190-198): `i` ranges over `range(0, SEQ_LENGTH, WINDOW_JUMP)` and the
loop `break`s as soon as `i + TRAIN_WINDOW > SEQ_LENGTH`, so the processed
starts are the longest prefix of the range satisfying
`i + TRAIN_WINDOW <= SEQ_LENGTH`. -/
def windowStarts (seqLen window jump : Nat) : List Nat :=
  (pyRange seqLen jump).takeWhile (fun i => decide (i + window ≤ seqLen))

/-- On a stepped range, `takeWhile` with a predicate that is downward closed
along the range agrees with `filter`: once the predicate fails it fails for
every later (larger) element. -/
theorem takeWhile_range'_eq_filter (p : Nat → Bool) (step : Nat)
    (hp : ∀ i j : Nat, i ≤ j → p j = true → p i = true) :
    ∀ (n a : Nat),
      (List.range' a n step).takeWhile p = (List.range' a n step).filter p := by
  intro n
  induction n with
  | zero => intro a; rfl
  | succ m ih =>
    intro a
    rw [List.range'_succ]
    by_cases h : p a = true
    · rw [List.takeWhile_cons_of_pos h, List.filter_cons_of_pos h, ih]
    · have hfalse : ∀ x ∈ List.range' (a + step) m step, ¬ p x = true := by
        intro x hx hpx
        have hax : a ≤ x := by
          rcases List.mem_range'.mp hx with ⟨i, _, rfl⟩
          omega
        exact h (hp a x hax hpx)
      rw [List.takeWhile_cons_of_neg h, List.filter_cons_of_neg h]
      exact (List.filter_eq_nil_iff.mpr hfalse).symm

/-- Characterization of the processed window starts: exactly the multiples of
the stride whose window fits inside the sequence. -/
theorem mem_windowStarts (seqLen window jump : Nat) (hj : 0 < jump)
    (hw : 0 < window) (i : Nat) :
    i ∈ windowStarts seqLen window jump ↔
      (∃ k, i = k * jump) ∧ i + window ≤ seqLen := by
  have hmono : ∀ a b : Nat, a ≤ b →
      decide (b + window ≤ seqLen) = true → decide (a + window ≤ seqLen) = true := by
    intro a b hab hb
    have hb' : b + window ≤ seqLen := of_decide_eq_true hb
    exact decide_eq_true (by omega)
  unfold windowStarts pyRange
  rw [takeWhile_range'_eq_filter _ jump hmono]
  rw [List.mem_filter]
  constructor
  · rintro ⟨hmem, hfit⟩
    rcases List.mem_range'.mp hmem with ⟨k, _, rfl⟩
    exact ⟨⟨k, by ring⟩, of_decide_eq_true hfit⟩
  · rintro ⟨⟨k, rfl⟩, hfit⟩
    refine ⟨List.mem_range'.mpr ⟨k, ?_, by ring⟩, decide_eq_true hfit⟩
    -- `k * jump + window ≤ seqLen` and `0 < window` give `k * jump < seqLen`,
    -- hence `k` is below the Python range bound `(seqLen + jump - 1) / jump`.
    have hlt : k * jump < seqLen := by omega
    have : (k + 1) * jump ≤ seqLen + jump - 1 := by
      have : k * jump + jump ≤ seqLen + jump - 1 := by omega
      calc (k + 1) * jump = k * jump + jump := by ring
        _ ≤ seqLen + jump - 1 := this
    have := (Nat.le_div_iff_mul_le hj).mpr this
    omega

/-- C1: in the windowed training step, the processed window starts are
exactly `i = 0, stride, 2*stride, ...` with `i + window_size <= sequence_length`;
any window that would overrun the sequence is skipped entirely (tail
truncation, no partial final window).  In particular, for
`sequence_length = 50`, `window_size = 20`, `stride = 10` exactly the 4
windows at starts 0, 10, 20, 30 are processed. -/
theorem c1_window_tail_truncation (seqLen window jump : Nat)
    (hj : 0 < jump) (hw : 0 < window) :
    (∀ i, i ∈ windowStarts seqLen window jump ↔
        (∃ k, i = k * jump) ∧ i + window ≤ seqLen) ∧
    windowStarts 50 20 10 = [0, 10, 20, 30] :=
  ⟨mem_windowStarts seqLen window jump hj hw, by decide⟩

/-- Witness for C1 at the concrete configuration of the spec example. -/
theorem c1_window_tail_truncation_witness :
    (40 ∈ windowStarts 50 20 10 ↔ (∃ k, 40 = k * 10) ∧ 40 + 20 ≤ 50) ∧
    windowStarts 50 20 10 = [0, 10, 20, 30] :=
  ⟨(c1_window_tail_truncation 50 20 10 (by decide) (by decide)).1 40,
   (c1_window_tail_truncation 50 20 10 (by decide) (by decide)).2⟩

/-- The early-stopping test of lines 267-269: with `train_mode` false
("hyperband" search mode), after an epoch's evaluation the run stops iff
the 1-based epoch index `epoch + 1` is at least 10 and the evaluation
accuracy is below 98. -/
def earlyStop (train_mode : Bool) (epoch : Nat) (accuracy : ℚ) : Bool :=
  !train_mode && decide (10 ≤ epoch + 1) && decide (accuracy < 98)

/-- The rank-0 view of the epoch loop (lines 154 and 241-276), abstracting
each epoch's work to the accuracy reported by the end-of-epoch evaluation:
starting from `epoch`, run epochs while `epoch < epoch_limit`; after each
epoch apply the early-stopping test; `some e` means the function returned
early at (0-based) epoch `e` with the current model, optimizer and stats,
`none` means the loop ran to the configured limit. -/
def epochLoop (train_mode : Bool) (accuracy : Nat → ℚ)
    (epoch epoch_limit : Nat) : Option Nat :=
  if epoch < epoch_limit then
    if earlyStop train_mode epoch (accuracy epoch) then some epoch
    else epochLoop train_mode accuracy (epoch + 1) epoch_limit
  else none
termination_by epoch_limit - epoch

/-- If every epoch's evaluation accuracy is at least 98, the search-mode
loop never stops early and runs to the configured limit. -/
theorem epochLoop_none_of_acc_ge (accuracy : Nat → ℚ)
    (hacc : ∀ e, 98 ≤ accuracy e) (start limit : Nat) :
    epochLoop false accuracy start limit = none := by
  have key : ∀ fuel start, limit - start ≤ fuel →
      epochLoop false accuracy start limit = none := by
    intro fuel
    induction fuel with
    | zero =>
      intro s hs
      rw [epochLoop]
      have : ¬ s < limit := by omega
      simp [this]
    | succ m ih =>
      intro s hs
      rw [epochLoop]
      by_cases h : s < limit
      · have hstop : earlyStop false s (accuracy s) = false := by
          have : ¬ accuracy s < 98 := not_lt.mpr (hacc s)
          simp [earlyStop, this]
        simp only [h, if_true, hstop, if_false]
        exact ih (s + 1) (by omega)
      · simp [h]
  exact key (limit - start) start le_rfl

/-- C2: with `train_mode = False`, at an epoch whose 1-based index
`epoch + 1` is at least 10 and whose evaluation accuracy is below 98, the
loop returns immediately at that epoch (the `return` of line 271); if the
accuracy is at least 98 at every epoch (e.g. a constant 99%), the loop
never stops early and runs to the configured epoch limit. -/
theorem c2_early_stopping (accuracy : Nat → ℚ) (start limit epoch : Nat) :
    (epoch < limit → 10 ≤ epoch + 1 → accuracy epoch < 98 →
      epochLoop false accuracy epoch limit = some epoch) ∧
    ((∀ e, 98 ≤ accuracy e) → epochLoop false accuracy start limit = none) := by
  constructor
  · intro hlt hten hacc
    rw [epochLoop]
    have hstop : earlyStop false epoch (accuracy epoch) = true := by
      simp [earlyStop, hacc, hten]
    simp [hlt, hstop]
  · intro hacc
    exact epochLoop_none_of_acc_ge accuracy hacc start limit

/-- Witness for C2: accuracy 90% at 1-based epoch 10 stops the run there;
constant accuracy 99% runs all 20 configured epochs. -/
theorem c2_early_stopping_witness :
    epochLoop false (fun _ => (90 : ℚ)) 9 20 = some 9 ∧
    epochLoop false (fun _ => (99 : ℚ)) 0 20 = none :=
  ⟨(c2_early_stopping (fun _ => (90 : ℚ)) 0 20 9).1 (by omega) (by omega)
      (by norm_num),
   (c2_early_stopping (fun _ => (99 : ℚ)) 0 20 0).2 (fun _ => by norm_num)⟩

/-- Events of one rank's epoch loop body (lines 176-266).  `barrier k`
is the `k`-th `dist.barrier()` call executed by a rank; barrier calls match
across ranks by execution count, and every rank executes two per epoch, so
epoch `e` contributes barriers `2*e` (line 243) and `2*e + 1` (line 253). -/
inductive Ev where
  | trainBatches (epoch : Nat)
  | barrier (k : Nat)
  | evaluate (epoch : Nat)
  | checkpointLog (epoch : Nat)
deriving DecidableEq

/-- The sequence of synchronization-relevant events rank `r` executes in
epoch `e` in train mode: every rank trains its batches (176-239) and hits
the two barriers (243, 253); only rank 0 runs the evaluation (245-252) and
the checkpoint save plus log writes (256-266), the latter after the second
barrier with no further barrier before the next epoch begins. -/
def epochEvents (r e : Nat) : List Ev :=
  if r = 0 then
    [Ev.trainBatches e, Ev.barrier (2 * e), Ev.evaluate e,
     Ev.barrier (2 * e + 1), Ev.checkpointLog e]
  else
    [Ev.trainBatches e, Ev.barrier (2 * e), Ev.barrier (2 * e + 1)]

/-- Number of events rank `r` executes per epoch. -/
def blockLen (r : Nat) : Nat := if r = 0 then 5 else 3

/-- The whole program of rank `r` over `epochs` epochs
(the loop at line 154). -/
def prog (r epochs : Nat) : List Ev :=
  (List.range epochs).flatMap (epochEvents r)

/-- The event rank `r` executes at position `p` of its program. -/
def evAt (r epochs p : Nat) : Ev :=
  (prog r epochs).getD p (Ev.trainBatches 0)

def isBarrier : Ev → Bool
  | Ev.barrier _ => true
  | _ => false

theorem epochEvents_length (r e : Nat) :
    (epochEvents r e).length = blockLen r := by
  by_cases h : r = 0 <;> simp [epochEvents, blockLen, h]

theorem prog_length (r epochs : Nat) :
    (prog r epochs).length = blockLen r * epochs := by
  induction epochs with
  | zero => rfl
  | succ n ih =>
    rw [prog, List.range_succ, List.flatMap_append, List.length_append]
    rw [← prog, ih]
    simp [epochEvents_length, Nat.mul_succ]

/-- Indexing the concatenated program: position `blockLen r * e + j` of the
program is position `j` of epoch `e`'s block. -/
theorem evAt_eq (r epochs e j : Nat) (he : e < epochs) (hj : j < blockLen r) :
    evAt r epochs (blockLen r * e + j) =
      (epochEvents r e).getD j (Ev.trainBatches 0) := by
  induction epochs with
  | zero => omega
  | succ n ih =>
    unfold evAt prog
    rw [List.range_succ, List.flatMap_append, ← prog]
    by_cases hcase : e < n
    · have hlt : blockLen r * e + j < (prog r n).length := by
        rw [prog_length]
        have : blockLen r * (e + 1) ≤ blockLen r * n := by
          exact Nat.mul_le_mul_left _ (by omega)
        have : blockLen r * e + blockLen r ≤ blockLen r * n := by
          rw [← Nat.mul_succ]; exact this
        omega
      rw [List.getD_append _ _ _ _ hlt]
      exact ih hcase
    · have he' : e = n := by omega
      subst he'
      have hge : (prog r e).length ≤ blockLen r * e + j := by
        rw [prog_length]; omega
      rw [List.getD_append_right _ _ _ _ hge]
      rw [prog_length]
      simp only [List.flatMap_cons, List.flatMap_nil, List.append_nil]
      congr 1
      omega

/-- Length of rank `r`'s program. -/
def progLen (r epochs : Nat) : Nat := (prog r epochs).length

/-- Executable check that `t` is a valid execution of `W` ranks over
`epochs` epochs, where `t r p` is the time at which rank `r` executes
position `p` of its program.  Program order is respected on every rank,
and a `dist.barrier()` releases no rank until every rank has arrived: any
event strictly after barrier `k` on one rank happens after every event up
to and including barrier `k` on every rank. -/
def validCheck (W epochs : Nat) (t : Nat → Nat → Nat) : Bool :=
  ((List.range W).all fun r =>
    (List.range (progLen r epochs)).all fun p =>
      (List.range (progLen r epochs)).all fun q =>
        !(decide (p < q)) || decide (t r p < t r q)) &&
  ((List.range W).all fun r =>
    (List.range W).all fun r' =>
      (List.range (progLen r epochs)).all fun pb =>
        (List.range (progLen r' epochs)).all fun pb' =>
          (!(isBarrier (evAt r epochs pb) &&
             decide (evAt r epochs pb = evAt r' epochs pb'))) ||
          ((List.range (progLen r epochs)).all fun p =>
            !(decide (pb < p)) ||
            ((List.range (pb' + 1)).all fun q => decide (t r' q < t r p))))

/-- A valid schedule, as a proposition. -/
def ValidSchedule (W epochs : Nat) (t : Nat → Nat → Nat) : Prop :=
  validCheck W epochs t = true

/-- Program order: extraction of the first clause of `validCheck`. -/
theorem valid_mono {W epochs : Nat} {t : Nat → Nat → Nat}
    (h : ValidSchedule W epochs t) (r p q : Nat) (hr : r < W)
    (hp : p < progLen r epochs) (hq : q < progLen r epochs) (hpq : p < q) :
    t r p < t r q := by
  unfold ValidSchedule validCheck at h
  rw [Bool.and_eq_true] at h
  have h1 := h.1
  rw [List.all_eq_true] at h1
  have h2 := h1 r (List.mem_range.mpr hr)
  rw [List.all_eq_true] at h2
  have h3 := h2 p (List.mem_range.mpr hp)
  rw [List.all_eq_true] at h3
  have h4 := h3 q (List.mem_range.mpr hq)
  simpa [hpq] using h4

/-- Barrier constraint: extraction of the second clause of `validCheck`. -/
theorem valid_barrier {W epochs : Nat} {t : Nat → Nat → Nat}
    (h : ValidSchedule W epochs t) (r r' pb pb' p q : Nat)
    (hr : r < W) (hr' : r' < W)
    (hpb : pb < progLen r epochs) (hpb' : pb' < progLen r' epochs)
    (hbar : isBarrier (evAt r epochs pb) = true)
    (hmatch : evAt r epochs pb = evAt r' epochs pb')
    (hp : p < progLen r epochs) (hpbp : pb < p) (hq : q ≤ pb') :
    t r' q < t r p := by
  unfold ValidSchedule validCheck at h
  rw [Bool.and_eq_true] at h
  have h1 := h.2
  rw [List.all_eq_true] at h1
  have h2 := h1 r (List.mem_range.mpr hr)
  rw [List.all_eq_true] at h2
  have h3 := h2 r' (List.mem_range.mpr hr')
  rw [List.all_eq_true] at h3
  have h4 := h3 pb (List.mem_range.mpr hpb)
  rw [List.all_eq_true] at h4
  have h5 := h4 pb' (List.mem_range.mpr hpb')
  rw [Bool.or_eq_true] at h5
  rcases h5 with h5 | h5
  · rw [Bool.not_eq_true', Bool.and_eq_false_iff] at h5
    rcases h5 with h5 | h5
    · rw [hbar] at h5; cases h5
    · rw [decide_eq_false_iff_not] at h5; exact absurd hmatch h5
  · rw [List.all_eq_true] at h5
    have h6 := h5 p (List.mem_range.mpr hp)
    rw [Bool.or_eq_true] at h6
    rcases h6 with h6 | h6
    · rw [Bool.not_eq_true', decide_eq_false_iff_not] at h6
      exact absurd hpbp h6
    · rw [List.all_eq_true] at h6
      have h7 := h6 q (List.mem_range.mpr (by omega))
      exact of_decide_eq_true h7

/-- C3 (amended): in every valid schedule, every rank's epoch follows
`TRAIN_BATCHES -> BARRIER -> (rank0: EVALUATE) -> BARRIER ->
(rank0: CHECKPOINT+LOG) -> next epoch`, and no rank starts the next
epoch's training before rank 0's evaluation of the current epoch has
completed: the evaluation sits between the two barriers, and every rank's
next-epoch work is after the second barrier.  (The checkpoint/log block
runs after the second barrier with no further barrier, so the analogous
guarantee for it fails; see the counterexample.) -/
theorem c3_eval_before_next_epoch (W epochs : Nat) (t : Nat → Nat → Nat)
    (hv : ValidSchedule W epochs t) (r : Nat) (hr : r < W) (e : Nat)
    (he : e + 1 < epochs) :
    evAt 0 epochs (5 * e + 2) = Ev.evaluate e ∧
    evAt r epochs (blockLen r * (e + 1)) = Ev.trainBatches (e + 1) ∧
    t 0 (5 * e + 2) < t r (blockLen r * (e + 1)) := by
  have hW0 : 0 < W := lt_of_le_of_lt (Nat.zero_le r) hr
  have hb0 : blockLen 0 = 5 := rfl
  have heval : evAt 0 epochs (5 * e + 2) = Ev.evaluate e := by
    have := evAt_eq 0 epochs e 2 (by omega) (by rw [hb0]; omega)
    rw [hb0] at this
    rw [this]
    simp [epochEvents]
  have htrain : evAt r epochs (blockLen r * (e + 1)) = Ev.trainBatches (e + 1) := by
    have := evAt_eq r epochs (e + 1) 0 he (by unfold blockLen; by_cases h : r = 0 <;> simp [h])
    rw [Nat.add_zero] at this
    rw [this]
    by_cases h : r = 0 <;> simp [epochEvents, h]
  refine ⟨heval, htrain, ?_⟩
  by_cases hr0 : r = 0
  · -- rank 0 orders its own events by program order alone
    subst hr0
    have hlen : progLen 0 epochs = 5 * epochs := by
      unfold progLen; rw [prog_length, hb0]
    exact valid_mono hv 0 (5 * e + 2) (blockLen 0 * (e + 1)) hW0
      (by rw [hlen]; omega) (by rw [hb0, hlen]; omega) (by rw [hb0]; omega)
  · -- other ranks: apply the barrier constraint at the epoch's second
    -- barrier, barrier `2*e + 1`, which on rank 0 follows the evaluation
    have hbr : blockLen r = 3 := by unfold blockLen; simp [hr0]
    have hlenr : progLen r epochs = 3 * epochs := by
      unfold progLen; rw [prog_length, hbr]
    have hlen0 : progLen 0 epochs = 5 * epochs := by
      unfold progLen; rw [prog_length, hb0]
    have hbarr : evAt r epochs (3 * e + 2) = Ev.barrier (2 * e + 1) := by
      have := evAt_eq r epochs e 2 (by omega) (by omega)
      rw [hbr] at this
      rw [this]
      simp [epochEvents, hr0]
    have hbar0 : evAt 0 epochs (5 * e + 3) = Ev.barrier (2 * e + 1) := by
      have := evAt_eq 0 epochs e 3 (by omega) (by rw [hb0]; omega)
      rw [hb0] at this
      rw [this]
      simp [epochEvents]
    have key : t 0 (5 * e + 2) < t r (3 * (e + 1)) :=
      valid_barrier hv r 0 (3 * e + 2) (5 * e + 3) (3 * (e + 1)) (5 * e + 2)
        hr hW0
        (by rw [hlenr]; omega) (by rw [hlen0]; omega)
        (by rw [hbarr]; rfl) (by rw [hbarr, hbar0])
        (by rw [hlenr]; omega) (by omega) (by omega)
    rw [hbr]
    exact key

/-- Witness for C3 (amended): the identity-free concrete instance — a valid
schedule for 2 ranks and 2 epochs in which each rank's times are its
program positions spread out enough to satisfy every barrier constraint. -/
def tSeq : Nat → Nat → Nat
  | 0, p => [0, 2, 4, 6, 8, 10, 12, 14, 16, 18].getD p 100
  | _, p => [1, 3, 7, 11, 13, 17].getD p 100

/-- A concrete schedule witnessing that valid schedules exist and satisfy
the amended C3 ordering. -/
theorem c3_eval_before_next_epoch_witness :
    ValidSchedule 2 2 tSeq ∧
    (evAt 0 2 (5 * 0 + 2) = Ev.evaluate 0 ∧
     evAt 1 2 (blockLen 1 * (0 + 1)) = Ev.trainBatches (0 + 1) ∧
     tSeq 0 (5 * 0 + 2) < tSeq 1 (blockLen 1 * (0 + 1))) := by
  have hv : ValidSchedule 2 2 tSeq := by
    unfold ValidSchedule
    decide
  exact ⟨hv, c3_eval_before_next_epoch 2 2 tSeq hv 1 (by omega) 0 (by omega)⟩

/-- The schedule refuting the checkpoint half of C3: rank 1 runs its
second epoch's training at time 8, before rank 0 writes the first epoch's
checkpoint/logs at time 9.  All program-order and barrier constraints
hold, because the second `dist.barrier()` of an epoch (line 253) precedes
the checkpoint/log block (lines 256-266) and no barrier follows it. -/
def tCex : Nat → Nat → Nat
  | 0, p => [1, 2, 5, 6, 9, 10, 11, 13, 15, 17].getD p 100
  | _, p => [0, 3, 7, 8, 12, 16].getD p 100

/-- Counterexample to C3 as stated: a valid schedule (2 ranks, 2 epochs)
in which rank 1 proceeds to epoch 2's training before rank 0's epoch-1
checkpoint/logging has completed. -/
theorem c3_cex_next_epoch_before_checkpoint :
    ValidSchedule 2 2 tCex ∧
    evAt 1 2 3 = Ev.trainBatches 1 ∧
    evAt 0 2 4 = Ev.checkpointLog 0 ∧
    tCex 1 3 < tCex 0 4 := by
  refine ⟨?_, by decide, by decide, by decide⟩
  unfold ValidSchedule
  decide

/-- State of `torch.utils.data.distributed.DistributedSampler` (the external
library collaborator constructed at lines 74-78). -/
structure DistSampler where
  datasetLen : Nat
  numReplicas : Nat
  rank : Nat
  shuffle : Bool
  epoch : Nat
deriving DecidableEq

/-- Lines 74-78: `DistributedSampler(train_data_set, num_replicas=world_size,
rank=rank)`.  The `shuffle` argument is not passed and so takes the library
default `True`; `set_epoch` is never called anywhere in the file, so the
sampler's epoch counter stays 0 (the shuffling permutation is the same,
fixed, pseudorandom permutation every epoch and every run). -/
def mkTrainSampler (datasetLen world_size rank : Nat) : DistSampler :=
  ⟨datasetLen, world_size, rank, true, 0⟩

/-- `ceil(M / W)`: the sampler's per-rank sample count. -/
def numSamples (M W : Nat) : Nat := (M + W - 1) / W

/-- `numSamples * W`: the padded length the sampler extends the index list to. -/
def totalSize (M W : Nat) : Nat := numSamples M W * W

/-- The index sequence the sampler yields to rank `r`, given the globally
ordered index list `order` (`randperm(len(dataset))` under the default
`shuffle=True`, `list(range(len(dataset)))` otherwise): pad by repeating the
head of `order` up to `totalSize`, then take positions `r, r + W, r + 2W, ...`
(`indices[rank:total_size:num_replicas]`). -/
def samplerIndices (order : List Nat) (W r : Nat) : List Nat :=
  let padded := order ++ order.take (totalSize order.length W - order.length)
  (List.range (numSamples order.length W)).map (fun j => padded.getD (r + j * W) 0)

theorem numSamples_mul (c W : Nat) (hW : 0 < W) : numSamples (c * W) W = c := by
  unfold numSamples
  have h1 : c * W + W - 1 = W * c + (W - 1) := by
    have : c * W = W * c := Nat.mul_comm c W
    omega
  rw [h1, Nat.mul_add_div hW]
  have h2 : (W - 1) / W = 0 := Nat.div_eq_of_lt (by omega)
  omega

theorem totalSize_of_dvd (M W : Nat) (hW : 0 < W) (hdvd : W ∣ M) :
    totalSize M W = M := by
  rcases hdvd with ⟨c, hc⟩
  subst hc
  unfold totalSize
  rw [Nat.mul_comm W c, numSamples_mul c W hW]

theorem le_totalSize (M W : Nat) (hW : 0 < W) : M ≤ totalSize M W := by
  unfold totalSize numSamples
  have h1 := Nat.div_add_mod (M + W - 1) W
  have h2 : (M + W - 1) % W < W := Nat.mod_lt _ hW
  have h3 : (M + W - 1) / W * W = W * ((M + W - 1) / W) := Nat.mul_comm _ _
  omega

/-- With `world_size` dividing the dataset size, no padding happens and the
shard is a pure strided selection from `order`. -/
theorem samplerIndices_of_dvd (order : List Nat) (W r : Nat) (hW : 0 < W)
    (hdvd : W ∣ order.length) :
    samplerIndices order W r =
      (List.range (numSamples order.length W)).map
        (fun j => order.getD (r + j * W) 0) := by
  unfold samplerIndices
  rw [totalSize_of_dvd order.length W hW hdvd]
  simp

/-- Strided positions determine the rank and the step uniquely. -/
theorem stride_pos_inj (W r r' j j' : Nat) (hr : r < W) (hr' : r' < W)
    (h : r + j * W = r' + j' * W) : r = r' ∧ j = j' := by
  have hW : 0 < W := by omega
  have e1 : (r + j * W) % W = r := by
    rw [Nat.add_mul_mod_self_right, Nat.mod_eq_of_lt hr]
  have e2 : (r' + j' * W) % W = r' := by
    rw [Nat.add_mul_mod_self_right, Nat.mod_eq_of_lt hr']
  have e3 : (r + j * W) / W = j := by
    rw [Nat.add_mul_div_right _ _ hW, Nat.div_eq_of_lt hr]
    omega
  have e4 : (r' + j' * W) / W = j' := by
    rw [Nat.add_mul_div_right _ _ hW, Nat.div_eq_of_lt hr']
    omega
  constructor
  · rw [← e1, ← e2, h]
  · rw [← e3, ← e4, h]

theorem stride_pos_lt (W r j ns : Nat) (hr : r < W) (hj : j < ns) :
    r + j * W < ns * W := by
  have h1 : (j + 1) * W = j * W + W := by ring
  have h2 : (j + 1) * W ≤ ns * W := Nat.mul_le_mul_right W (by omega)
  omega

theorem mem_samplerIndices_iff (order : List Nat) (W r : Nat) (hW : 0 < W)
    (hdvd : W ∣ order.length) (x : Nat) :
    x ∈ samplerIndices order W r ↔
      ∃ j, j < numSamples order.length W ∧ order.getD (r + j * W) 0 = x := by
  rw [samplerIndices_of_dvd order W r hW hdvd]
  simp only [List.mem_map, List.mem_range]

/-- Every dataset index reaches some rank (also in the padded case). -/
theorem shard_cover (order : List Nat) (W : Nat) (hW : 0 < W) (x : Nat)
    (hx : x ∈ order) : ∃ r, r < W ∧ x ∈ samplerIndices order W r := by
  obtain ⟨p, hp, hpx⟩ := List.getElem_of_mem hx
  refine ⟨p % W, Nat.mod_lt _ hW, ?_⟩
  unfold samplerIndices
  simp only [List.mem_map, List.mem_range]
  refine ⟨p / W, ?_, ?_⟩
  · have hlt : p < totalSize order.length W :=
      Nat.lt_of_lt_of_le hp (le_totalSize order.length W hW)
    exact (Nat.div_lt_iff_lt_mul hW).mpr hlt
  · have hpos : p % W + p / W * W = p := Nat.mod_add_div' p W
    rw [hpos, List.getD_append _ _ _ _ hp, List.getD_eq_getElem _ _ hp, hpx]

/-- C4 (amended): with `0 < world_size` dividing the dataset size (the
documented padding policy duplicates head indices otherwise) and the global
order a duplicate-free index list, the per-rank shards produced by the
sampler are pairwise disjoint and cover the dataset exactly once each: every
index lands in exactly one rank's shard, each shard is duplicate-free, and
shards only contain dataset indices.  The shard is a pure function of
`(order, world_size, rank)` — deterministic.  (The claim's further assertion
that shuffling is disabled and delivery follows the dataset's input order is
refuted separately: the sampler is constructed with the default
`shuffle=True`.) -/
theorem c4_shard_partition (order : List Nat) (W : Nat) (hW : 0 < W)
    (hdvd : W ∣ order.length) (hnd : order.Nodup) :
    (∀ x, x ∈ order → ∃! r, r < W ∧ x ∈ samplerIndices order W r) ∧
    (∀ r, r < W → (samplerIndices order W r).Nodup) ∧
    (∀ r, r < W → ∀ x, x ∈ samplerIndices order W r → x ∈ order) := by
  have hlen : totalSize order.length W = order.length :=
    totalSize_of_dvd order.length W hW hdvd
  have hbound : ∀ r j, r < W → j < numSamples order.length W →
      r + j * W < order.length := by
    intro r j hr hj
    have := stride_pos_lt W r j (numSamples order.length W) hr hj
    unfold totalSize at hlen
    omega
  refine ⟨?_, ?_, ?_⟩
  · intro x hx
    obtain ⟨r, hr, hmem⟩ := shard_cover order W hW x hx
    refine ⟨r, ⟨hr, hmem⟩, ?_⟩
    rintro r' ⟨hr', hmem'⟩
    obtain ⟨j, hj, hjx⟩ := (mem_samplerIndices_iff order W r hW hdvd x).mp hmem
    obtain ⟨j', hj', hjx'⟩ :=
      (mem_samplerIndices_iff order W r' hW hdvd x).mp hmem'
    have hb : r + j * W < order.length := hbound r j hr hj
    have hb' : r' + j' * W < order.length := hbound r' j' hr' hj'
    rw [List.getD_eq_getElem _ _ hb] at hjx
    rw [List.getD_eq_getElem _ _ hb'] at hjx'
    have heq : order[r' + j' * W] = order[r + j * W] := by rw [hjx, hjx']
    have hpos : r' + j' * W = r + j * W := (hnd.getElem_inj_iff).mp heq
    exact (stride_pos_inj W r' r j' j hr' hr hpos).1
  · intro r hr
    rw [samplerIndices_of_dvd order W r hW hdvd]
    refine List.Nodup.map_on ?_ (List.nodup_range _)
    intro j hj j' hj' hfe
    rw [List.mem_range] at hj hj'
    have hb : r + j * W < order.length := hbound r j hr hj
    have hb' : r + j' * W < order.length := hbound r j' hr hj'
    rw [List.getD_eq_getElem _ _ hb, List.getD_eq_getElem _ _ hb'] at hfe
    have hpos : r + j * W = r + j' * W := (hnd.getElem_inj_iff).mp hfe
    exact (stride_pos_inj W r r j j' hr hr hpos).2
  · intro r hr x hmem
    obtain ⟨j, hj, hjx⟩ := (mem_samplerIndices_iff order W r hW hdvd x).mp hmem
    have hb : r + j * W < order.length := hbound r j hr hj
    rw [List.getD_eq_getElem _ _ hb] at hjx
    rw [← hjx]
    exact List.getElem_mem hb

/-- Witness for C4 (amended) at the concrete 4-element order `[0,1,2,3]`
and `world_size = 2`. -/
theorem c4_shard_partition_witness :
    ∃! r, r < 2 ∧ 3 ∈ samplerIndices [0, 1, 2, 3] 2 r :=
  (c4_shard_partition [0, 1, 2, 3] 2 (by decide) (by decide) (by decide)).1
    3 (by decide)

/-- Counterexample to C4 as stated: the sampler constructed at lines 74-78
has `shuffle = true` (the torch default; the `shuffle=False` at line 83 is
an argument of the `DataLoader` and only delegates ordering to the sampler),
so the delivered per-shard order follows the fixed pseudorandom permutation,
not the dataset's input order: under the possible permutation `[1,0,2,3]` of
a 4-element dataset, rank 0 receives `[1, 2]` instead of the input-order
`[0, 2]`. -/
theorem c4_cex_shuffle_enabled :
    (mkTrainSampler 4 2 0).shuffle = true ∧
    samplerIndices [1, 0, 2, 3] 2 0 = [1, 2] ∧
    samplerIndices [0, 1, 2, 3] 2 0 = [0, 2] ∧
    samplerIndices [1, 0, 2, 3] 2 0 ≠ samplerIndices [0, 1, 2, 3] 2 0 := by
  refine ⟨rfl, by decide, by decide, by decide⟩

/-- A tensor together with the set of window indices whose computation
graph is reachable from it (the autodiff history). `torch.zeros` (line 182)
has empty history. -/
structure Tracked (α : Type) where
  value : α
  graph : Finset Nat

/-- Line 224: `hidden = hidden.detach()` — the numeric value is kept, the
gradient graph is severed. -/
def Tracked.detach {α : Type} (h : Tracked α) : Tracked α := ⟨h.value, ∅⟩

/-- The window loop of lines 190-224, abstracting the numeric forward
computation to `f`: in window `i` the model consumes the carried hidden
state (line 201), so the loss/output graph is window `i`'s own operations
(`insert i`) together with everything reachable from the carried hidden
state; `loss.backward()` (line 214) traverses exactly that graph, recorded
in the returned list; afterwards the hidden state is detached (line 224)
and carried to the next window.  Returns the backward-traversed graph of
every window together with the final hidden state. -/
def windowBackwardSets {α : Type} (f : Nat → α → α) :
    List Nat → Tracked α → List (Finset Nat) × Tracked α
  | [], h => ([], h)
  | i :: rest, h =>
    let g : Finset Nat := insert i h.graph
    let res := windowBackwardSets f rest (Tracked.detach ⟨f i h.value, g⟩)
    (g :: res.1, res.2)

/-- C5: starting from the zero-initialized hidden state (empty graph), the
backward pass of every window traverses exactly that window's own graph —
never the computation graph of any earlier window — while the numeric value
of the hidden state is the fold of the per-window forward function, i.e. it
is carried forward across every window boundary. -/
theorem c5_detach_truncates_backprop {α : Type} (f : Nat → α → α)
    (starts : List Nat) (v : α) :
    (windowBackwardSets f starts ⟨v, ∅⟩).1 =
      starts.map (fun i => ({i} : Finset Nat)) ∧
    (windowBackwardSets f starts ⟨v, ∅⟩).2.value =
      starts.foldl (fun w i => f i w) v := by
  induction starts generalizing v with
  | nil => exact ⟨rfl, rfl⟩
  | cons i rest ih =>
    refine ⟨?_, ?_⟩
    · simp only [windowBackwardSets, Tracked.detach, List.map_cons,
        List.cons.injEq]
      exact ⟨by simp, (ih (f i v)).1⟩
    · simp only [windowBackwardSets, Tracked.detach, List.foldl_cons]
      exact (ih (f i v)).2

/-- File-system and evaluation side effects of `train`. -/
inductive FsEffect where
  | openLog (name : String)
  | writeLog (name : String)
  | invokeEval (epoch : Nat)
  | saveCheckpoint (path : String)
deriving DecidableEq

/-- Lines 58-65: the three log files are opened iff
`train_mode is True and rank == 0`; every other rank gets `None` loggers. -/
def setupEffects (train_mode : Bool) (rank : Nat) : List FsEffect :=
  if train_mode = true ∧ rank = 0 then
    [FsEffect.openLog "train_loss.csv", FsEffect.openLog "test_loss.csv",
     FsEffect.openLog "confusion_matrix.txt"]
  else []

/-- Line 259: the checkpoint path
`model_dir + "HELEN_epoch_" + str(epoch + 1) + '_checkpoint.pkl'`. -/
def checkpointPath (model_dir : String) (epoch : Nat) : String :=
  model_dir ++ "HELEN_epoch_" ++ toString (epoch + 1) ++ "_checkpoint.pkl"

/-- The file-system/evaluation side effects of one epoch of `train`
(lines 176-266): per-batch `train_loss.csv` rows are written only when
`train_mode is True and rank == 0` (lines 229-230); the evaluation runs
only on rank 0 (lines 245-248); the checkpoint save and the
`test_loss.csv` / `confusion_matrix.txt` rows happen only when
`train_mode is True and rank == 0` (lines 256-266). -/
def epochEffects (train_mode : Bool) (rank : Nat) (model_dir : String)
    (epoch numBatches : Nat) : List FsEffect :=
  (if train_mode = true ∧ rank = 0 then
      List.replicate numBatches (FsEffect.writeLog "train_loss.csv")
    else []) ++
  (if rank = 0 then [FsEffect.invokeEval epoch] else []) ++
  (if train_mode = true ∧ rank = 0 then
      [FsEffect.saveCheckpoint (checkpointPath model_dir epoch),
       FsEffect.writeLog "test_loss.csv",
       FsEffect.writeLog "confusion_matrix.txt"]
    else [])

/-- All file-system/evaluation side effects of a run of `train` on one
rank: the logger setup followed by every epoch's effects. -/
def runEffects (train_mode : Bool) (rank : Nat) (model_dir : String)
    (start_epoch epoch_limit numBatches : Nat) : List FsEffect :=
  setupEffects train_mode rank ++
    (List.range' start_epoch (epoch_limit - start_epoch)).flatMap
      (fun e => epochEffects train_mode rank model_dir e numBatches)

/-- C6: every rank other than 0 performs no file-system side effects at
all — no log opens or writes, no evaluation, no checkpoint — while rank 0
in train mode opens exactly the three log files once. -/
theorem c6_rank0_only_effects (train_mode : Bool) (rank : Nat)
    (model_dir : String) (start_epoch epoch_limit numBatches : Nat)
    (hr : rank ≠ 0) :
    runEffects train_mode rank model_dir start_epoch epoch_limit numBatches
      = [] ∧
    setupEffects true 0 =
      [FsEffect.openLog "train_loss.csv", FsEffect.openLog "test_loss.csv",
       FsEffect.openLog "confusion_matrix.txt"] := by
  constructor
  · have hsetup : setupEffects train_mode rank = [] := by
      simp [setupEffects, hr]
    have hepoch : ∀ lst : List Nat,
        lst.flatMap (fun e => epochEffects train_mode rank model_dir e numBatches)
          = [] := by
      intro lst
      induction lst with
      | nil => rfl
      | cons a tl ih => simp [List.flatMap_cons, ih, epochEffects, hr]
    unfold runEffects
    rw [hsetup, hepoch]
    rfl
  · rfl

/-- Witness for C6 at `world_size = 4`, rank 3. -/
theorem c6_rank0_only_effects_witness :
    runEffects true 3 "md/" 0 5 7 = [] ∧
    setupEffects true 0 =
      [FsEffect.openLog "train_loss.csv", FsEffect.openLog "test_loss.csv",
       FsEffect.openLog "confusion_matrix.txt"] :=
  c6_rank0_only_effects true 3 "md/" 0 5 7 (by decide)

/-- Lines 42-43 of `save_best_model`: delete the file at `file_name` if one
exists (`os.path.isfile` / `os.remove`).  The file system is an
association of paths to file contents. -/
def removeIfExists (fs : List (String × Nat)) (path : String) :
    List (String × Nat) :=
  fs.filter (fun e => decide (e.1 ≠ path))

/-- Modelled from the spec: `ModelHandler.save_model`, invoked at lines
257-259, lives in `ModelHander.py` which is not part of the sources here;
per the spec the previous file at the same path is deleted before the
write ("overwritten-by-delete-then-write semantics at that exact path if
it pre-exists"), exactly the behaviour of `save_best_model` at lines 42-50
of this file: remove the existing file, then write the checkpoint. -/
def save_model (fs : List (String × Nat)) (path : String) (content : Nat) :
    List (String × Nat) :=
  removeIfExists fs path ++ [(path, content)]

theorem filter_eq_of_removed (fs : List (String × Nat)) (path : String) :
    (removeIfExists fs path).filter (fun e => decide (e.1 = path)) = [] := by
  unfold removeIfExists
  rw [List.filter_filter]
  apply List.filter_eq_nil_iff.mpr
  intro a _
  by_cases h : a.1 = path <;> simp [h]

/-- C7: in train mode rank 0's end-of-epoch effects contain a checkpoint
save at the exact path `<model_dir>HELEN_epoch_<epoch+1>_checkpoint.pkl`,
and saving twice to the same path leaves exactly one file at that path,
containing only the second save's contents. -/
theorem c7_checkpoint_overwrite (model_dir : String) (epoch numBatches : Nat)
    (fs : List (String × Nat)) (path : String) (c1 c2 : Nat) :
    checkpointPath model_dir epoch =
      model_dir ++ "HELEN_epoch_" ++ toString (epoch + 1) ++ "_checkpoint.pkl" ∧
    FsEffect.saveCheckpoint (checkpointPath model_dir epoch) ∈
      epochEffects true 0 model_dir epoch numBatches ∧
    (save_model (save_model fs path c1) path c2).filter
      (fun e => decide (e.1 = path)) = [(path, c2)] := by
  refine ⟨rfl, ?_, ?_⟩
  · unfold epochEffects
    simp
  · unfold save_model
    rw [List.filter_append, filter_eq_of_removed]
    simp

/-- Outcome of the pre-training configuration checks. -/
inductive InitOutcome where
  | exitFailure (stderrReported : Bool) (code : Nat)
  | proceed (retrainLoaded : Bool)
deriving DecidableEq

/-- Lines 91-94: with the retrain flag set, if `os.path.isfile` is false
for the supplied retrain model path, an error is written to stderr and the
process calls `exit(1)`; otherwise the retrain model is loaded and
training proceeds. -/
def retrainGate (retrain_model retrain_path_isfile : Bool) : InitOutcome :=
  if retrain_model = true then
    if retrain_path_isfile = false then InitOutcome.exitFailure true 1
    else InitOutcome.proceed true
  else InitOutcome.proceed false

/-- The run as gated by the retrain check: on failure the process exits
with the code and performs no training work; otherwise the training work
(abstracted to its result `work`) happens. -/
def trainEntry (retrain_model retrain_path_isfile : Bool) (work : Nat) :
    Except Nat Nat :=
  match retrainGate retrain_model retrain_path_isfile with
  | InitOutcome.exitFailure _ c => Except.error c
  | InitOutcome.proceed _ => Except.ok work

/-- C8: if the retrain flag is set and the supplied path does not name an
existing file, the error is reported to stderr and the process terminates
with exit code 1, with no retry and no training work performed, whatever
that work would have been. -/
theorem c8_retrain_path_exit (work : Nat) :
    retrainGate true false = InitOutcome.exitFailure true 1 ∧
    trainEntry true false work = Except.error 1 :=
  ⟨rfl, rfl⟩

/-- The `TrainOptions` constants of `Options.py` (not among the sources
here; kept parametric — no property below depends on their values). -/
structure TrainOptionsT where
  GRU_LAYERS : Nat
  HIDDEN_SIZE : Nat
deriving DecidableEq

/-- Line 182: `hidden = torch.zeros(images.size(0), 2 * TrainOptions.GRU_LAYERS,
TrainOptions.HIDDEN_SIZE)` — the shape comes from the global `TrainOptions`
constants, not from the `gru_layers` / `hidden_size` arguments of `train`
(which configure the model at lines 96-114 and can differ, e.g. when a
retrain checkpoint overrides them at line 96). -/
def hiddenInitShape (batch : Nat) (opts : TrainOptionsT) : Nat × Nat × Nat :=
  (batch, 2 * opts.GRU_LAYERS, opts.HIDDEN_SIZE)

/-- `torch.zeros`: every entry of the initial hidden state is 0. -/
def hiddenInitEntry (opts : TrainOptionsT) (b r c : Nat) : ℚ := 0

/-- The shape the claim asserts: `(batch, 2*layers, hidden_size)` built from
the model's configured GRU layer count and hidden size. -/
def hiddenInitShapeClaimed (batch gru_layers hidden_size : Nat) :
    Nat × Nat × Nat :=
  (batch, 2 * gru_layers, hidden_size)

/-- Counterexample to C9 as stated: the initial hidden state's shape is
built from the `TrainOptions` constants, so in a run whose configured model
sizes differ from those constants (here constants `(1, 128)` against a
model configured with `gru_layers = 2`, `hidden_size = 256`, a combination
the CLI and the retrain-checkpoint path both allow) the shape is not
`(batch, 2*layers, hidden_size)` of the configured sizes. -/
theorem c9_cex_global_constants :
    hiddenInitShape 5 ⟨1, 128⟩ ≠ hiddenInitShapeClaimed 5 2 256 := by
  decide

/-- C9 (amended): at the start of every batch the hidden state is
initialized to all zeros with shape `(batch, 2 * TrainOptions.GRU_LAYERS,
TrainOptions.HIDDEN_SIZE)` — the fixed global constants; this equals the
claim's `(batch, 2*layers, hidden_size)` for the configured model sizes
exactly when the configuration agrees with the constants. -/
theorem c9_hidden_init_zero_shape (batch gl hs : Nat) (opts : TrainOptionsT)
    (b r c : Nat) :
    hiddenInitEntry opts b r c = 0 ∧
    hiddenInitShape batch opts = (batch, 2 * opts.GRU_LAYERS, opts.HIDDEN_SIZE) ∧
    (hiddenInitShape batch opts = hiddenInitShapeClaimed batch gl hs ↔
      opts.GRU_LAYERS = gl ∧ opts.HIDDEN_SIZE = hs) := by
  refine ⟨rfl, rfl, ?_⟩
  unfold hiddenInitShape hiddenInitShapeClaimed
  simp only [Prod.mk.injEq, true_and]
  omega

/-- Line 227 (and 233): `avg_loss = (total_loss / total_images) if
total_images else 0` — Python truthiness: divide only when the count is
nonzero. -/
def avgLoss (total_loss : ℚ) (total_images : Nat) : ℚ :=
  if total_images ≠ 0 then total_loss / (total_images : ℚ) else 0

/-- Line 230: the row `epoch+1, batch_no, avg_loss` appended to
`train_loss.csv`. -/
def trainLossRow (epoch batch_no : Nat) (total_loss : ℚ)
    (total_images : Nat) : Nat × Nat × ℚ :=
  (epoch + 1, batch_no, avgLoss total_loss total_images)

/-- C10: the per-batch average loss written to `train_loss.csv` is the
accumulated loss divided by the accumulated processed-example count when
the count is nonzero, and 0 when the count is zero — the guard means the
division-by-zero case is never taken. -/
theorem c10_avg_loss_no_div_zero (t : ℚ) (n e b : Nat) :
    (n ≠ 0 → avgLoss t n = t / (n : ℚ)) ∧
    (n = 0 → avgLoss t n = 0) ∧
    (trainLossRow e b t n).2.2 = avgLoss t n := by
  refine ⟨?_, ?_, rfl⟩
  · intro h; simp [avgLoss, h]
  · intro h; simp [avgLoss, h]

/-- Witness for C10 at a nonzero and at a zero example count. -/
theorem c10_avg_loss_no_div_zero_witness :
    avgLoss 6 2 = 6 / ((2 : Nat) : ℚ) ∧ avgLoss 6 0 = 0 :=
  ⟨(c10_avg_loss_no_div_zero 6 2 1 1).1 (by decide),
   (c10_avg_loss_no_div_zero 6 0 1 1).2.1 rfl⟩

end TrainDistributed
